import Mathlib

/-!
Shallow embedding of the Repository Discovery & Status Engine of
`src/commands/list.rs` (crate `git-extend`), together with theorems that
settle the frozen claims about its specification.

Modelling conventions:
* byte strings are modelled as `List Char` (the engine only inspects ASCII);
* fallible external calls (`gix::open`, `head_name`, spawned `git` commands,
  reference enumeration) are modelled by `Option`-valued fields of an
  environment record: `none` is the call failing, `some` its output;
* the Rust `HashMap<String, BranchStatus>` is modelled as an association
  list with unique keys; since `HashMap` iteration order is unspecified,
  the order in which the final loop of `get_all_branches` sees the entries
  is an explicit argument (any permutation of the built map);
* terminal colour escapes written by `termcolor` are not modelled: renderer
  output is the textual payload only.
-/

namespace GitExtend

/-- `BranchStatus` from `list.rs` lines 22-31. -/
inductive BranchStatus where
  | Ok : BranchStatus
  | Ahead (n : Nat) : BranchStatus
  | Behind (n : Nat) : BranchStatus
  | Diverged (ahead behind : Nat) : BranchStatus
  | NoUpstream : BranchStatus
  | Uncommitted (count : Nat) : BranchStatus
  | Untracked (count : Nat) : BranchStatus
deriving DecidableEq, Repr

/-- `BranchInfo` from `list.rs` lines 16-20. -/
structure BranchInfo where
  name : String
  status : BranchStatus
deriving DecidableEq, Repr

/-- `RepoStatus` from `list.rs` lines 9-14; paths are segment lists. -/
structure RepoStatus where
  path : List String
  current_branch : String
  all_branches : List BranchInfo
deriving DecidableEq, Repr

/-- A synthetic status line (attached without a branch identity). -/
def BranchStatus.isSynthetic : BranchStatus → Bool
  | .Uncommitted _ => true
  | .Untracked _ => true
  | _ => false

/-! ### Small string utilities mirroring the Rust std functions used. -/

/-- Value of a digit list, most significant first (`usize::from_str` fold). -/
def digitsVal (ds : List Char) : Nat :=
  ds.foldl (fun n c => n * 10 + (c.toNat - 48)) 0

/-- `usize::from_str` on a digit list: nonempty, all decimal digits. -/
def parseDigits (cs : List Char) : Option Nat :=
  if cs = [] then none
  else if cs.all (fun c => c.isDigit) then some (digitsVal cs) else none

/-- Rust `str::parse::<usize>().unwrap_or(0)`: an optional leading `+`,
then decimal digits, value below `2^64`; anything else yields `0`. -/
def parseUsize (s : String) : Nat :=
  let cs := if s.data.head? = some '+' then s.data.tail else s.data
  match parseDigits cs with
  | some n => if n < 18446744073709551616 then n else 0
  | none => 0

/-- Rust `str::trim_end_matches(c)`: remove every trailing occurrence. -/
def trimEnd (c : Char) (s : String) : String :=
  String.mk ((s.data.reverse.dropWhile (fun d => d == c)).reverse)

/-- Worker for `wsSplit`: `acc` is the reversed current run. -/
def wsSplitAux : List Char → List Char → List (List Char)
  | [], acc => if acc = [] then [] else [acc.reverse]
  | c :: rest, acc =>
    if c.isWhitespace then
      if acc = [] then wsSplitAux rest []
      else acc.reverse :: wsSplitAux rest []
    else wsSplitAux rest (c :: acc)

/-- Rust `str::split_whitespace` on a character list: maximal runs of
non-whitespace characters, whitespace discarded. -/
def wsSplit (l : List Char) : List (List Char) :=
  wsSplitAux l []

/-- Rust `str::split_whitespace` returning strings. -/
def splitWhitespaceL (s : String) : List String :=
  (wsSplit s.data).map String.mk

/-- Rust byte-slice `split(|&b| b == b'\n')` (keeps empty fragments). -/
def splitNl : List Char → List (List Char)
  | [] => [[]]
  | c :: rest =>
    if c = '\n' then [] :: splitNl rest
    else
      match splitNl rest with
      | [] => [[c]]
      | t :: ts => (c :: t) :: ts

/-! ### `count_changes` (`list.rs` lines 131-160). -/

/-- Per-line counting loop of `count_changes`: a line of length at least 2
starting `??` bumps untracked; any other such line whose first two bytes are
not both blanks bumps uncommitted.  Accumulator is (uncommitted, untracked). -/
def countLines (lines : List (List Char)) : Nat × Nat :=
  lines.foldl
    (fun acc l =>
      match l with
      | c0 :: c1 :: _ =>
        if c0 = '?' ∧ c1 = '?' then (acc.1, acc.2 + 1)
        else if c0 ≠ ' ' ∨ c1 ≠ ' ' then (acc.1 + 1, acc.2)
        else acc
      | _ => acc)
    (0, 0)

/-- `count_changes`: `none` models the spawned `git status --porcelain`
failing (`if let Ok(output)` falls through and both counts stay zero). -/
def countChanges (stdout : Option (List Char)) : Nat × Nat :=
  match stdout with
  | none => (0, 0)
  | some bytes => countLines (splitNl bytes)

/-- Lines counted as untracked by `count_changes`: length at least 2 and
the first two bytes are `??`. -/
def isUntrackedLine : List Char → Bool
  | c0 :: c1 :: _ => c0 == '?' && c1 == '?'
  | _ => false

/-- Lines counted as uncommitted by `count_changes`: length at least 2,
not starting `??`, and the first two bytes not both blanks. -/
def isUncommittedLine : List Char → Bool
  | c0 :: c1 :: _ => !(c0 == '?' && c1 == '?') && (c0 != ' ' || c1 != ' ')
  | _ => false

/-! ### Tracking-token classification (`list.rs` lines 213-253). -/

/-- The four-way match on the first four whitespace tokens following the
branch name in a `git for-each-ref` output line. -/
def parseTrackTokens (toks : List String) : BranchStatus :=
  match toks.get? 0, toks.get? 1, toks.get? 2, toks.get? 3 with
  | none, _, _, _ => .Ok
  | some t1, some c, t3, t4 =>
    if t1 = "[ahead" then
      match t3, t4 with
      | some t3v, some b =>
        if t3v = "behind" then
          .Diverged (parseUsize (trimEnd ',' c)) (parseUsize (trimEnd ']' b))
        else .Ahead (parseUsize (trimEnd ']' c))
      | _, _ => .Ahead (parseUsize (trimEnd ']' c))
    else if t1 = "[behind" then .Behind (parseUsize (trimEnd ']' c))
    else .NoUpstream
  | some _, none, _, _ => .NoUpstream

/-! ### The branch-status map (`HashMap<String, BranchStatus>`). -/

/-- Association list standing for the Rust `HashMap`; keys kept unique. -/
abbrev AssocMap := List (String × BranchStatus)

/-- `HashMap::insert`: replace the value when the key is present,
otherwise add the binding. -/
def insertReplace (k : String) (v : BranchStatus) : AssocMap → AssocMap
  | [] => [(k, v)]
  | (k', v') :: rest =>
    if k' = k then (k, v) :: rest else (k', v') :: insertReplace k v rest

/-- `HashMap::contains_key`. -/
def containsKey (k : String) (m : AssocMap) : Bool :=
  m.any (fun p => p.1 == k)

/-- `HashMap::get`. -/
def lookupKey (k : String) (m : AssocMap) : Option BranchStatus :=
  (m.find? (fun p => p.1 == k)).map Prod.snd

/-- Seeding loop (`list.rs` lines 186-197): every enumerated local branch
is inserted with placeholder status `Ok`. -/
def seedBranches (enum : List String) : AssocMap :=
  enum.foldl (fun m b => insertReplace b .Ok m) []

/-- One line of the `git for-each-ref` output (`list.rs` lines 213-259):
split on whitespace; an empty line is skipped; otherwise the first token is
the branch name and the classification of the remaining tokens replaces the
seeded status, but only for a branch already present in the map. -/
def trackLine (m : AssocMap) (line : String) : AssocMap :=
  match splitWhitespaceL line with
  | [] => m
  | name :: toks =>
    if containsKey name m then insertReplace name (parseTrackTokens toks) m
    else m

/-- Building `branch_statuses` (`list.rs` lines 183-261).  `enum = none`
models the native reference enumeration failing (map stays empty);
`track = none` models the spawned `git for-each-ref` failing (seeded
statuses survive untouched).  The tracking pass only runs on a nonempty
map, mirroring `if !branch_statuses.is_empty()`. -/
def buildBranchMap (enum : Option (List String)) (track : Option (List String)) :
    AssocMap :=
  let m := match enum with
    | none => []
    | some bs => seedBranches bs
  if m.isEmpty then m
  else
    match track with
    | none => m
    | some lines => lines.foldl trackLine m

/-! ### Assembly of the branch list (`list.rs` lines 162-306). -/

/-- Final assembly of `get_all_branches`: `iter` is the branch-status map
in the (unspecified) order `HashMap` iteration presents it.  The current
branch entry goes first; when changes exist the synthetic uncommitted and
untracked entries follow it; then every other entry of the map. -/
def get_all_branches (current : String) (iter : AssocMap)
    (uncommitted untracked : Nat) : List BranchInfo :=
  let currentStatus := (lookupKey current iter).getD .NoUpstream
  let head : List BranchInfo :=
    if uncommitted > 0 ∨ untracked > 0 then
      [⟨current, currentStatus⟩] ++
        (if uncommitted > 0 then [⟨"", .Uncommitted uncommitted⟩] else []) ++
        (if untracked > 0 then [⟨"", .Untracked untracked⟩] else [])
    else [⟨current, currentStatus⟩]
  head ++ (iter.filter (fun p => p.1 != current)).map (fun p => ⟨p.1, p.2⟩)

/-- `head_name` post-processing (`list.rs` lines 106-116 and 170-180):
`none` is a detached or unborn HEAD (`unwrap_or_else`), a full reference
name keeps only its `refs/heads/` suffix, anything else collapses to the
`"HEAD"` sentinel. -/
def headToBranchName : Option String → String
  | none => "HEAD"
  | some s => if s.startsWith ("refs/heads/") then s.drop 11 else "HEAD"

/-- Inputs that `get_repo_status` draws from the outside world; `none`
always models the corresponding call failing. -/
structure RepoEnv where
  path : List String
  openOk : Bool
  headRes : Option (Option String)
  statusOut : Option (List Char)
  localBranches : Option (List String)
  trackOut : Option (List String)
  mapIter : AssocMap
deriving DecidableEq, Repr

/-- `get_repo_status` (`list.rs` lines 102-129): `gix::open` failing or
`head_name()?` erroring aborts with `Err`; everything else degrades. -/
def get_repo_status (env : RepoEnv) : Option RepoStatus :=
  if env.openOk then
    match env.headRes with
    | none => none
    | some h =>
      let current := headToBranchName h
      let counts := countChanges env.statusOut
      some ⟨env.path, current,
        get_all_branches current env.mapIter counts.1 counts.2⟩
  else none

/-! ### The repository walker (`list.rs` lines 46-100). -/

/-- Directory trees as the walker sees them; names are entry names. -/
inductive FSTree where
  | file (name : String) : FSTree
  | dir (name : String) (entries : List FSTree) : FSTree

def FSTree.name : FSTree → String
  | .file n => n
  | .dir n _ => n

def FSTree.isDir : FSTree → Bool
  | .file _ => false
  | .dir _ _ => true

/-- The fixed exclusion set of `list.rs` lines 83-87. -/
def excludedNames : List String :=
  ["node_modules", "target", "build", "dist", "out", "__pycache__",
   ".cache", "vendor", "bin", "obj"]

/-- Name-based skip applied before any metadata call: hidden entries
(`starts_with('.')`) and the exclusion set. -/
def skipName (n : String) : Bool :=
  (match n.data with
   | c :: _ => c == '.'
   | [] => false) || excludedNames.contains n

mutual

/-- `find_repos_recursive` (`list.rs` lines 53-100) on a directory tree;
paths are segment lists relative to the scan root, and `ok path` models
`get_repo_status` succeeding at that path.  When a `.git` entry exists the
function never recurses; it yields the directory only when that entry is
itself a directory and resolution succeeds. -/
def findReposRecursive (ok : List String → Bool) (path : List String) :
    FSTree → List (List String)
  | .file _ => []
  | .dir _ entries =>
    if entries.any (fun e => e.name == ".git") then
      if entries.any (fun e => e.name == ".git" && e.isDir) && ok path then
        [path]
      else []
    else findInEntries ok path entries

/-- The entry loop of `find_repos_recursive`: skip by name first, then
recurse into directory entries. -/
def findInEntries (ok : List String → Bool) (path : List String) :
    List FSTree → List (List String)
  | [] => []
  | e :: rest =>
    (if skipName e.name then []
     else if e.isDir then findReposRecursive ok (path ++ [e.name]) e
     else []) ++ findInEntries ok path rest

end

/-- Distinctness of a name list, decidably. -/
def nodupNames : List String → Bool
  | [] => true
  | n :: rest => !rest.contains n && nodupNames rest

mutual

/-- Well-formed directory trees: sibling names are distinct, recursively
(true of any real filesystem). -/
def FSTree.wfB : FSTree → Bool
  | .file _ => true
  | .dir _ entries => nodupNames (entries.map FSTree.name) && wfAll entries

def wfAll : List FSTree → Bool
  | [] => true
  | e :: rest => e.wfB && wfAll rest

end

/-! ### Tree builder (`list.rs` lines 325-369). -/

/-- `TreeNode` from `list.rs` lines 325-330; the `HashMap` of children is
an association list with unique keys. -/
inductive TreeNode where
  | node (name : String) (children : List (String × TreeNode))
      (repoStatus : Option RepoStatus) : TreeNode

def TreeNode.nameOf : TreeNode → String
  | .node n _ _ => n

def TreeNode.childrenOf : TreeNode → List (String × TreeNode)
  | .node _ c _ => c

def findChild (kids : List (String × TreeNode)) (key : String) :
    Option TreeNode :=
  (kids.find? (fun p => p.1 == key)).map Prod.snd

def replaceChild (kids : List (String × TreeNode)) (key : String)
    (c : TreeNode) : List (String × TreeNode) :=
  match kids with
  | [] => [(key, c)]
  | (k, t) :: rest =>
    if k = key then (k, c) :: rest else (k, t) :: replaceChild rest key c

def setRepo (repo : RepoStatus) : TreeNode → TreeNode
  | .node n kids _ => .node n kids (some repo)

/-- The per-repository segment descent of `build_tree_structure`
(`list.rs` lines 350-364): walk or create a child per segment; the final
segment's node receives the status. -/
def insertPath (repo : RepoStatus) : TreeNode → List String → TreeNode
  | t, [] => t
  | .node n kids rs, seg :: rest =>
    let child := match findChild kids seg with
      | some c => c
      | none => .node seg [] none
    let child' := if rest = [] then setRepo repo child
      else insertPath repo child rest
    .node n (replaceChild kids seg child') rs

/-- `build_tree_structure` (`list.rs` lines 342-369): statuses whose path
does not extend the base directory are silently dropped
(`strip_prefix` erring). -/
def buildTreeStructure (repos : List RepoStatus) (base : List String) :
    TreeNode :=
  repos.foldl
    (fun root repo =>
      if List.isPrefixOf base repo.path then
        insertPath repo root (repo.path.drop base.length)
      else root)
    (.node ("") [] none)

/-! ### Renderers (`list.rs` lines 308-497), textual payload only. -/

/-- `print_branch_status` (`list.rs` lines 427-465) without the colour
escapes. -/
def statusText : BranchStatus → String
  | .Ok => " ok"
  | .Ahead n => " " ++ toString n ++ " ahead"
  | .Behind n => " " ++ toString n ++ " behind"
  | .Diverged a b => " " ++ toString a ++ " ahead " ++ toString b ++ " behind"
  | .NoUpstream => " no upstream"
  | .Uncommitted c => "  [ " ++ toString c ++ " uncommitted ]"
  | .Untracked c => "  [ " ++ toString c ++ " untracked ]"

def spaces : Nat → String
  | 0 => ""
  | n + 1 => " " ++ spaces n

/-- The branch-printing loop of `print_tree_node` (`list.rs` lines
378-401), with its `first_branch` flag. -/
def branchLoop (nodeName pfx : String) (isLast : Bool) :
    Bool → List BranchInfo → String
  | _, [] => ""
  | firstB, b :: rest =>
    if firstB && !(b.name == "") then
      (" " ++ b.name ++ statusText b.status) ++
        branchLoop nodeName pfx isLast false rest
    else if !(b.name == "") then
      ("\n" ++ pfx ++ (if isLast then "    " else "│   ") ++
          spaces (20 - nodeName.length) ++ b.name ++ statusText b.status) ++
        branchLoop nodeName pfx isLast firstB rest
    else
      statusText b.status ++ branchLoop nodeName pfx isLast firstB rest

/-- Stable insertion step of `sort_by_key` on child name. -/
def insertByName (p : String × TreeNode) :
    List (String × TreeNode) → List (String × TreeNode)
  | [] => [p]
  | q :: rest => if p.1 ≤ q.1 then p :: q :: rest else q :: insertByName p rest

/-- `children.sort_by_key(|(name, _)| name)` (`list.rs` lines 407-408). -/
def sortChildren : List (String × TreeNode) → List (String × TreeNode)
  | [] => []
  | p :: rest => insertByName p (sortChildren rest)

theorem sizeOf_insertByName (p : String × TreeNode)
    (l : List (String × TreeNode)) :
    sizeOf (insertByName p l) = 1 + sizeOf p + sizeOf l := by
  induction l with
  | nil =>
    simp only [insertByName, List.cons.sizeOf_spec, List.nil.sizeOf_spec]
  | cons q rest ih =>
    simp only [insertByName]
    split
    · simp only [List.cons.sizeOf_spec]
    · simp only [List.cons.sizeOf_spec, ih]
      omega

theorem sizeOf_sortChildren (l : List (String × TreeNode)) :
    sizeOf (sortChildren l) = sizeOf l := by
  induction l with
  | nil => rfl
  | cons p rest ih =>
    simp only [sortChildren, sizeOf_insertByName, ih, List.cons.sizeOf_spec]

mutual

/-- `print_tree_node` (`list.rs` lines 371-425), textual payload only. -/
def printTreeNode (t : TreeNode) (pfx : String) (isLast : Bool) : String :=
  match t with
  | .node name kids rs =>
    let selfText :=
      if name = "" then ""
      else
        pfx ++ (if isLast then "└── " else "├── ") ++ name ++
          (match rs with
           | some status => branchLoop name pfx isLast true status.all_branches
           | none => "") ++ "\n"
    let childPfx :=
      pfx ++ (if name = "" then "" else if isLast then "    " else "│   ")
    selfText ++ printKids (sortChildren kids) childPfx
termination_by sizeOf t
decreasing_by
  simp only [TreeNode.node.sizeOf_spec, sizeOf_sortChildren]
  omega

/-- The sorted-children loop with its last-sibling flag. -/
def printKids : List (String × TreeNode) → String → String
  | [], _ => ""
  | [(_, c)], p => printTreeNode c p true
  | (_, c) :: rest, p => printTreeNode c p false ++ printKids rest p
termination_by l _ => sizeOf l
decreasing_by
  · simp only [List.cons.sizeOf_spec, List.nil.sizeOf_spec, Prod.mk.sizeOf_spec]
    omega
  · simp only [List.cons.sizeOf_spec, Prod.mk.sizeOf_spec]
    omega
  · simp only [List.cons.sizeOf_spec]
    omega

end

/-- Path rendering for display. -/
def pathText (p : List String) : String :=
  String.intercalate ("/") p

/-- `print_tree` (`list.rs` lines 308-323): the base directory line, then
either the no-repositories line or the rendered tree. -/
def printTree (repos : List RepoStatus) (baseDir : List String) : String :=
  (pathText baseDir ++ "\n") ++
    (if repos.isEmpty then "  No git repositories found" ++ "\n"
     else printTreeNode (buildTreeStructure repos baseDir) "" true)

/-- One line of `print_flat` (`list.rs` lines 470-481): the path, then the
parenthesised current branch and its status when the exact-name lookup
succeeds. -/
def flatLine (repo : RepoStatus) : String :=
  pathText repo.path ++
    (match repo.all_branches.find? (fun b => b.name == repo.current_branch) with
     | some b => " (" ++ b.name ++ ")" ++ statusText b.status
     | none => "") ++ "\n"

/-- `print_flat` (`list.rs` lines 467-482). -/
def printFlat (repos : List RepoStatus) : String :=
  String.join (repos.map flatLine)

/-! ### Association-map lemmas. -/

theorem lookup_insertReplace_self (k : String) (v : BranchStatus) :
    ∀ m : AssocMap, lookupKey k (insertReplace k v m) = some v
  | [] => by simp [insertReplace, lookupKey]
  | (k', v') :: rest => by
    by_cases h : k' = k
    · simp [insertReplace, h, lookupKey]
    · simp only [insertReplace, if_neg h, lookupKey, List.find?]
      rw [show ((k', v').1 == k) = false by simpa using h]
      exact lookup_insertReplace_self k v rest

theorem mem_insertReplace {p : String × BranchStatus} (k : String)
    (v : BranchStatus) :
    ∀ m : AssocMap, p ∈ insertReplace k v m → p = (k, v) ∨ p ∈ m
  | [] => by simp [insertReplace]
  | (k', v') :: rest => by
    by_cases h : k' = k
    · simp only [insertReplace, if_pos h, List.mem_cons]
      rintro (rfl | hm)
      · exact Or.inl rfl
      · exact Or.inr (Or.inr hm)
    · simp only [insertReplace, if_neg h, List.mem_cons]
      rintro (rfl | hm)
      · exact Or.inr (Or.inl rfl)
      · rcases mem_insertReplace k v rest hm with h' | h'
        · exact Or.inl h'
        · exact Or.inr (Or.inr h')

theorem contains_iff_mem_keys {j : String} {m : AssocMap} :
    containsKey j m = true ↔ j ∈ m.map Prod.fst := by
  simp only [containsKey, List.any_eq_true, List.mem_map]
  constructor
  · rintro ⟨p, hp, he⟩
    exact ⟨p, hp, by simpa using (beq_iff_eq.mp he)⟩
  · rintro ⟨p, hp, he⟩
    exact ⟨p, hp, by simpa using he⟩

theorem lookup_mem {k : String} {v : BranchStatus} {m : AssocMap}
    (h : lookupKey k m = some v) : (k, v) ∈ m := by
  simp only [lookupKey, Option.map_eq_some'] at h
  obtain ⟨p, hp, rfl⟩ := h
  have hm := List.mem_of_find?_eq_some hp
  have hk := List.find?_some hp
  have : p.1 = k := by simpa using hk
  have hpe : p = (k, p.2) := by
    cases p
    simp_all
  rwa [← hpe]

theorem lookup_of_contains {k : String} {m : AssocMap}
    (h : containsKey k m = true) : ∃ v, lookupKey k m = some v := by
  induction m with
  | nil => simp [containsKey] at h
  | cons p rest ih =>
    by_cases hk : p.1 = k
    · exact ⟨p.2, by simp [lookupKey, List.find?, hk]⟩
    · have h' : containsKey k rest = true := by
        simpa [containsKey, hk] using h
      obtain ⟨v, hv⟩ := ih h'
      refine ⟨v, ?_⟩
      simp only [lookupKey, List.find?]
      rw [show (p.1 == k) = false by simpa using hk]
      exact hv

theorem keys_insertReplace_of_contains {k : String} (v : BranchStatus) :
    ∀ {m : AssocMap}, containsKey k m = true →
      (insertReplace k v m).map Prod.fst = m.map Prod.fst := by
  intro m
  induction m with
  | nil => simp [containsKey]
  | cons p rest ih =>
    intro h
    by_cases hk : p.1 = k
    · cases p
      simp_all [insertReplace]
    · have h' : containsKey k rest = true := by
        simpa [containsKey, hk] using h
      cases p
      simp_all [insertReplace, ih h']

theorem keys_insertReplace_of_not_contains {k : String} (v : BranchStatus) :
    ∀ {m : AssocMap}, containsKey k m = false →
      (insertReplace k v m).map Prod.fst = m.map Prod.fst ++ [k] := by
  intro m
  induction m with
  | nil => simp [insertReplace]
  | cons p rest ih =>
    intro h
    simp only [containsKey, List.any_cons, Bool.or_eq_false_iff] at h
    have hk : ¬ p.1 = k := by simpa using h.1
    have h' : containsKey k rest = false := h.2
    cases p
    simp_all [insertReplace, ih h']

theorem containsKey_insertReplace_self (k : String) (v : BranchStatus)
    (m : AssocMap) : containsKey k (insertReplace k v m) = true := by
  by_cases hc : containsKey k m = true
  · rw [contains_iff_mem_keys, keys_insertReplace_of_contains v hc]
    exact contains_iff_mem_keys.mp hc
  · have hc' : containsKey k m = false := by simpa using hc
    rw [contains_iff_mem_keys, keys_insertReplace_of_not_contains v hc']
    simp

theorem containsKey_insertReplace_mono {j : String} (k : String)
    (v : BranchStatus) {m : AssocMap} (h : containsKey j m = true) :
    containsKey j (insertReplace k v m) = true := by
  by_cases hc : containsKey k m = true
  · rw [contains_iff_mem_keys, keys_insertReplace_of_contains v hc]
    exact contains_iff_mem_keys.mp h
  · have hc' : containsKey k m = false := by simpa using hc
    rw [contains_iff_mem_keys, keys_insertReplace_of_not_contains v hc']
    exact List.mem_append_left _ (contains_iff_mem_keys.mp h)

theorem containsKey_insertReplace_inv {j k : String} {v : BranchStatus}
    {m : AssocMap} (h : containsKey j (insertReplace k v m) = true) :
    containsKey j m = true ∨ j = k := by
  by_cases hc : containsKey k m = true
  · rw [contains_iff_mem_keys, keys_insertReplace_of_contains v hc] at h
    exact Or.inl (contains_iff_mem_keys.mpr h)
  · have hc' : containsKey k m = false := by simpa using hc
    rw [contains_iff_mem_keys, keys_insertReplace_of_not_contains v hc'] at h
    rcases List.mem_append.mp h with h | h
    · exact Or.inl (contains_iff_mem_keys.mpr h)
    · simp only [List.mem_singleton] at h
      exact Or.inr h

theorem nodup_keys_insertReplace {k : String} {v : BranchStatus}
    {m : AssocMap} (h : (m.map Prod.fst).Nodup) :
    ((insertReplace k v m).map Prod.fst).Nodup := by
  by_cases hc : containsKey k m = true
  · rwa [keys_insertReplace_of_contains v hc]
  · have hc' : containsKey k m = false := by simpa using hc
    rw [keys_insertReplace_of_not_contains v hc']
    have hk : k ∉ m.map Prod.fst := fun hm => by
      simp [contains_iff_mem_keys.mpr hm] at hc'
    simp [List.nodup_append, h, hk]

/-! ### Seeding-phase lemmas. -/

theorem seed_aux_mem :
    ∀ (l : List String) (m : AssocMap) (p : String × BranchStatus),
      p ∈ l.foldl (fun acc b => insertReplace b .Ok acc) m →
      p ∈ m ∨ p.2 = .Ok := by
  intro l
  induction l with
  | nil => intro m p h; exact Or.inl h
  | cons b rest ih =>
    intro m p h
    rcases ih (insertReplace b .Ok m) p h with h' | h'
    · rcases mem_insertReplace b .Ok m h' with h'' | h''
      · right; rw [h'']
      · left; exact h''
    · right; exact h'

theorem seed_aux_contains :
    ∀ (l : List String) (m : AssocMap) (b : String),
      b ∈ l ∨ containsKey b m = true →
      containsKey b (l.foldl (fun acc x => insertReplace x .Ok acc) m) = true := by
  intro l
  induction l with
  | nil =>
    intro m b h
    rcases h with h | h
    · simp at h
    · exact h
  | cons x rest ih =>
    intro m b h
    apply ih
    rcases h with h | h
    · rcases List.mem_cons.mp h with rfl | h'
      · right; exact containsKey_insertReplace_self b .Ok m
      · left; exact h'
    · right; exact containsKey_insertReplace_mono x .Ok h

theorem seed_aux_contains_inv :
    ∀ (l : List String) (m : AssocMap) (b : String),
      containsKey b (l.foldl (fun acc x => insertReplace x .Ok acc) m) = true →
      b ∈ l ∨ containsKey b m = true := by
  intro l
  induction l with
  | nil => intro m b h; exact Or.inr h
  | cons x rest ih =>
    intro m b h
    rcases ih (insertReplace x .Ok m) b h with h' | h'
    · left; exact List.mem_cons_of_mem _ h'
    · rcases containsKey_insertReplace_inv h' with h'' | h''
      · right; exact h''
      · left; rw [h'']; exact List.mem_cons_self _ _

theorem seed_aux_nodup :
    ∀ (l : List String) (m : AssocMap),
      (m.map Prod.fst).Nodup →
      ((l.foldl (fun acc x => insertReplace x .Ok acc) m).map Prod.fst).Nodup := by
  intro l
  induction l with
  | nil => intro m h; exact h
  | cons x rest ih => intro m h; exact ih _ (nodup_keys_insertReplace h)

theorem mem_seedBranches {p : String × BranchStatus} {l : List String}
    (h : p ∈ seedBranches l) : p.2 = .Ok := by
  rcases seed_aux_mem l [] p h with h' | h'
  · simp at h'
  · exact h'

theorem containsKey_seedBranches {b : String} {l : List String} :
    containsKey b (seedBranches l) = true ↔ b ∈ l := by
  constructor
  · intro h
    rcases seed_aux_contains_inv l [] b h with h' | h'
    · exact h'
    · simp [containsKey] at h'
  · intro h
    exact seed_aux_contains l [] b (Or.inl h)

theorem nodup_keys_seedBranches (l : List String) :
    ((seedBranches l).map Prod.fst).Nodup :=
  seed_aux_nodup l [] (by simp)

/-! ### Tracking-phase lemmas. -/

theorem parseTrackTokens_not_synthetic (toks : List String) :
    (parseTrackTokens toks).isSynthetic = false := by
  rcases toks with _ | ⟨t1, rest⟩
  · rfl
  rcases rest with _ | ⟨t2, rest2⟩
  · rfl
  rcases rest2 with _ | ⟨t3, rest3⟩
  · simp only [parseTrackTokens, List.get?]
    split_ifs <;> rfl
  rcases rest3 with _ | ⟨t4, rest4⟩
  · simp only [parseTrackTokens, List.get?]
    split_ifs <;> rfl
  · simp only [parseTrackTokens, List.get?]
    split_ifs <;> rfl

theorem keys_trackLine (m : AssocMap) (line : String) :
    (trackLine m line).map Prod.fst = m.map Prod.fst := by
  unfold trackLine
  rcases hs : splitWhitespaceL line with _ | ⟨name, toks⟩
  · simp only [hs]
  · simp only [hs]
    split_ifs with h
    · exact keys_insertReplace_of_contains _ h
    · rfl

theorem mem_trackLine {p : String × BranchStatus} {m : AssocMap}
    {line : String} (h : p ∈ trackLine m line) :
    p ∈ m ∨ ∃ toks, p.2 = parseTrackTokens toks := by
  unfold trackLine at h
  rcases hs : splitWhitespaceL line with _ | ⟨name, toks⟩ <;> simp only [hs] at h
  · exact Or.inl h
  · by_cases hc : containsKey name m = true
    · rw [if_pos hc] at h
      rcases mem_insertReplace _ _ _ h with h' | h'
      · right; exact ⟨toks, by rw [h']⟩
      · left; exact h'
    · rw [if_neg hc] at h
      exact Or.inl h

theorem keys_trackFold (lines : List String) :
    ∀ m : AssocMap,
      (lines.foldl trackLine m).map Prod.fst = m.map Prod.fst := by
  induction lines with
  | nil => intro m; rfl
  | cons l rest ih => intro m; rw [List.foldl_cons, ih, keys_trackLine]

theorem mem_trackFold {p : String × BranchStatus} (lines : List String) :
    ∀ m : AssocMap, p ∈ lines.foldl trackLine m →
      p ∈ m ∨ ∃ toks, p.2 = parseTrackTokens toks := by
  induction lines with
  | nil => intro m h; exact Or.inl h
  | cons l rest ih =>
    intro m h
    rcases ih _ h with h' | h'
    · exact mem_trackLine h'
    · exact Or.inr h'

/-! ### Branch-map lemmas. -/

theorem keys_buildBranchMap (l : List String) (track : Option (List String)) :
    (buildBranchMap (some l) track).map Prod.fst =
      (seedBranches l).map Prod.fst := by
  dsimp only [buildBranchMap]
  split_ifs with h
  · rfl
  · cases track with
    | none => rfl
    | some lines => exact keys_trackFold lines _

theorem containsKey_buildBranchMap {b : String} {l : List String}
    {track : Option (List String)} :
    containsKey b (buildBranchMap (some l) track) = true ↔ b ∈ l := by
  rw [contains_iff_mem_keys, keys_buildBranchMap, ← contains_iff_mem_keys]
  exact containsKey_seedBranches

theorem nodup_keys_buildBranchMap (enum : Option (List String))
    (track : Option (List String)) :
    ((buildBranchMap enum track).map Prod.fst).Nodup := by
  cases enum with
  | none => simp [buildBranchMap]
  | some l => rw [keys_buildBranchMap]; exact nodup_keys_seedBranches l

theorem mem_buildBranchMap_not_synthetic {p : String × BranchStatus}
    {enum : Option (List String)} {track : Option (List String)}
    (h : p ∈ buildBranchMap enum track) : p.2.isSynthetic = false := by
  have hOk : p.2 = .Ok → p.2.isSynthetic = false := by
    intro he; rw [he]; rfl
  rcases enum with _ | l
  · simp [buildBranchMap] at h
  · simp only [buildBranchMap] at h
    split_ifs at h with he
    · exact hOk (mem_seedBranches h)
    · cases track with
      | none => exact hOk (mem_seedBranches h)
      | some lines =>
        rcases mem_trackFold lines _ h with h' | ⟨toks, ht⟩
        · exact hOk (mem_seedBranches h')
        · rw [ht]; exact parseTrackTokens_not_synthetic toks

/-! ### Claim theorems. -/

theorem countLines_fold (lines : List (List Char)) :
    ∀ a b : Nat,
      lines.foldl
        (fun acc l =>
          match l with
          | c0 :: c1 :: _ =>
            if c0 = '?' ∧ c1 = '?' then (acc.1, acc.2 + 1)
            else if c0 ≠ ' ' ∨ c1 ≠ ' ' then (acc.1 + 1, acc.2)
            else acc
          | _ => acc)
        (a, b) =
      (a + lines.countP isUncommittedLine,
        b + lines.countP isUntrackedLine) := by
  induction lines with
  | nil => intro a b; simp
  | cons l rest ih =>
    intro a b
    rcases l with _ | ⟨c0, rest0⟩
    · simp only [List.foldl_cons]
      rw [ih]
      simp [List.countP_cons, isUncommittedLine, isUntrackedLine]
    rcases rest0 with _ | ⟨c1, rest1⟩
    · simp only [List.foldl_cons]
      rw [ih]
      simp [List.countP_cons, isUncommittedLine, isUntrackedLine]
    · simp only [List.foldl_cons]
      split_ifs with h1 h2
      · rw [ih]
        obtain ⟨rfl, rfl⟩ := h1
        simp only [List.countP_cons, isUncommittedLine, isUntrackedLine,
          Prod.mk.injEq]
        simp only [beq_self_eq_true, Bool.and_self, Bool.not_true,
          Bool.false_and, cond_false, cond_true]
        constructor
        · simp
        · simp
          omega
      · rw [ih]
        have hu : isUncommittedLine (c0 :: c1 :: rest1) = true := by
          simp only [isUncommittedLine, Bool.and_eq_true, Bool.not_eq_true']
          constructor
          · simp only [Bool.and_eq_false_iff]
            rcases Decidable.not_and_iff_or_not.mp h1 with h | h
            · left; simpa using h
            · right; simpa using h
          · rcases h2 with h | h
            · simp [h]
            · simp [h]
        have ht : isUntrackedLine (c0 :: c1 :: rest1) = false := by
          simp only [isUntrackedLine, Bool.and_eq_false_iff]
          rcases Decidable.not_and_iff_or_not.mp h1 with h | h
          · left; simpa using h
          · right; simpa using h
        simp only [List.countP_cons, hu, ht, Prod.mk.injEq]
        constructor
        · simp
          omega
        · simp
      · rw [ih]
        push_neg at h2
        obtain ⟨rfl, rfl⟩ := h2
        simp [List.countP_cons, isUncommittedLine, isUntrackedLine]

/-- C5 (corrected): on a sequence of status-output lines, `count_changes`
counts as untracked exactly the lines of length at least 2 beginning `??`,
and as uncommitted exactly the other lines of length at least 2 whose first
two bytes are not both blanks; a line matching the untracked test is never
counted as uncommitted, so each line feeds at most one counter.  (The claim
as frozen says *any* other non-blank line increments uncommitted; lines of
length 1, and lines whose first two bytes are blanks, increment neither.) -/
theorem C5_amended_theorem (lines : List (List Char)) :
    countLines lines =
      (lines.countP isUncommittedLine, lines.countP isUntrackedLine) ∧
    ∀ l : List Char, isUntrackedLine l = true → isUncommittedLine l = false := by
  constructor
  · have h := countLines_fold lines 0 0
    simpa [countLines] using h
  · intro l h
    rcases l with _ | ⟨c0, rest0⟩
    · simp [isUntrackedLine] at h
    rcases rest0 with _ | ⟨c1, rest1⟩
    · simp [isUntrackedLine] at h
    · simp only [isUntrackedLine] at h
      simp [isUncommittedLine, h]

/-- C5 counterexample: the line `x` is non-blank and does not begin with
`??`, yet `count_changes` leaves both counters at zero (its guard demands
at least two bytes); likewise the non-blank line whose first two bytes are
blanks.  The claim as frozen would have each increment uncommitted. -/
theorem C5_counterexample :
    countLines [['x']] = (0, 0) ∧ countLines [[' ', ' ', 'M']] = (0, 0) :=
  ⟨rfl, rfl⟩

/-- C4 (corrected): resolution yields a status exactly when the repository
opens *and* the symbolic HEAD name is readable; `head_name()?` propagates
its error, so a HEAD-read failure also aborts resolution, while the status
query, branch enumeration and tracking query only degrade fields.  (The
claim as frozen says resolution fails only when the path cannot be opened
as a repository at all.) -/
theorem C4_amended_theorem (env : RepoEnv) :
    (get_repo_status env).isSome = (env.openOk && env.headRes.isSome) := by
  rcases env with ⟨p, o, h, s, lb, t, mi⟩
  cases o <;> cases h <;> simp [get_repo_status]

/-- C4 counterexample: an environment whose repository opens fine but whose
HEAD read errors (`headRes = none`): resolution returns no status even
though the path opened as a repository. -/
theorem C4_counterexample :
    get_repo_status ⟨[], true, none, some [], some [], none, []⟩ = none ∧
    (RepoEnv.mk [] true none (some []) (some []) none []).openOk = true :=
  ⟨rfl, rfl⟩

theorem dropWhile_all_false (p : Char → Bool) :
    ∀ l : List Char, (∀ c ∈ l, p c = false) → l.dropWhile p = l
  | [] => fun _ => rfl
  | c :: rest => fun h => by
    rw [List.dropWhile_cons, h c (List.mem_cons_self c rest)]
    simp

theorem dropWhile_cons_of_pos (p : Char → Bool) (a : Char) (l : List Char)
    (h : p a = true) : (a :: l).dropWhile p = l.dropWhile p := by
  simp [List.dropWhile, h]

theorem trimEnd_append (x : Char) (ds : List Char)
    (h : ∀ c ∈ ds, (c == x) = false) :
    trimEnd x (String.mk (ds ++ [x])) = String.mk ds := by
  simp only [trimEnd]
  rw [List.reverse_append]
  have h1 : ([x] : List Char).reverse = [x] := rfl
  rw [h1, List.singleton_append]
  rw [dropWhile_cons_of_pos (fun d => d == x) x ds.reverse
    (beq_self_eq_true x)]
  rw [dropWhile_all_false _ _ (fun c hc => h c (List.mem_reverse.mp hc))]
  rw [List.reverse_reverse]

theorem all_digits_ne (x : Char) (hx : x.isDigit = false) {ds : List Char}
    (hd : ds.all Char.isDigit = true) : ∀ c ∈ ds, (c == x) = false := by
  intro c hc
  have hcd : c.isDigit = true := (List.all_eq_true.mp hd) c hc
  by_contra hb
  have hce : c = x := by
    have hbe : (c == x) = true := by simpa using hb
    exact beq_iff_eq.mp hbe
  rw [hce] at hcd
  simp [hcd] at hx

theorem parseUsize_digits (ds : List Char) (hne : ds ≠ [])
    (hd : ds.all Char.isDigit = true)
    (hlt : digitsVal ds < 18446744073709551616) :
    parseUsize (String.mk ds) = digitsVal ds := by
  have hhead : ¬ (String.mk ds).data.head? = some '+' := by
    rcases ds with _ | ⟨c, rest⟩
    · simp
    · have hc : c.isDigit = true :=
        (List.all_eq_true.mp hd) c (List.mem_cons_self c rest)
      have hcp : c ≠ '+' := by
        intro he
        rw [he] at hc
        exact absurd hc (by decide)
      simpa using hcp
  simp only [parseUsize, parseDigits, if_neg hhead, if_neg hne, hd]
  simp [hlt]

/-- C6 (confirmed): the tracking-token classification maps no token to
`Ok`, `[ahead N]` to `Ahead N`, `[behind N]` to `Behind N`, and
`[ahead N, behind M]` to `Diverged N M` for decimal numerals `N`, `M`, and
a numeric token that fails to parse (here `x]`, `x,`, `y]`) defaults to
`0` inside the classified status rather than failing resolution. -/
theorem C6_theorem (ds es : List Char)
    (hne : ds ≠ []) (hd : ds.all Char.isDigit = true)
    (hlt : digitsVal ds < 18446744073709551616)
    (hne2 : es ≠ []) (he : es.all Char.isDigit = true)
    (hlt2 : digitsVal es < 18446744073709551616) :
    parseTrackTokens [] = .Ok ∧
    parseTrackTokens ["[ahead", String.mk (ds ++ [']'])] =
      .Ahead (digitsVal ds) ∧
    parseTrackTokens ["[behind", String.mk (ds ++ [']'])] =
      .Behind (digitsVal ds) ∧
    parseTrackTokens
        ["[ahead", String.mk (ds ++ [',']), "behind",
          String.mk (es ++ [']'])] =
      .Diverged (digitsVal ds) (digitsVal es) ∧
    parseTrackTokens ["[ahead", "x]"] = .Ahead 0 ∧
    parseTrackTokens ["[behind", "x]"] = .Behind 0 ∧
    parseTrackTokens ["[ahead", "x,", "behind", "y]"] = .Diverged 0 0 := by
  have hbr : ∀ c ∈ ds, (c == ']') = false := all_digits_ne ']' (by decide) hd
  have hcm : ∀ c ∈ ds, (c == ',') = false := all_digits_ne ',' (by decide) hd
  have hbr2 : ∀ c ∈ es, (c == ']') = false := all_digits_ne ']' (by decide) he
  refine ⟨rfl, ?_, ?_, ?_, by decide, by decide, by decide⟩
  · have hstep : parseTrackTokens ["[ahead", String.mk (ds ++ [']'])] =
        .Ahead (parseUsize (trimEnd ']' (String.mk (ds ++ [']'])))) := rfl
    rw [hstep, trimEnd_append ']' ds hbr, parseUsize_digits ds hne hd hlt]
  · have hstep : parseTrackTokens ["[behind", String.mk (ds ++ [']'])] =
        .Behind (parseUsize (trimEnd ']' (String.mk (ds ++ [']'])))) := rfl
    rw [hstep, trimEnd_append ']' ds hbr, parseUsize_digits ds hne hd hlt]
  · have hstep : parseTrackTokens
        ["[ahead", String.mk (ds ++ [',']), "behind",
          String.mk (es ++ [']'])] =
        .Diverged (parseUsize (trimEnd ',' (String.mk (ds ++ [',']))))
          (parseUsize (trimEnd ']' (String.mk (es ++ [']'])))) := rfl
    rw [hstep, trimEnd_append ',' ds hcm, trimEnd_append ']' es hbr2]
    rw [parseUsize_digits ds hne hd hlt, parseUsize_digits es hne2 he hlt2]

/-- C6 witness at `N = 42`, `M = 7`. -/
theorem C6_theorem_witness :
    parseTrackTokens [] = .Ok ∧
    parseTrackTokens ["[ahead", String.mk (['4', '2'] ++ [']'])] =
      .Ahead (digitsVal ['4', '2']) ∧
    parseTrackTokens ["[behind", String.mk (['4', '2'] ++ [']'])] =
      .Behind (digitsVal ['4', '2']) ∧
    parseTrackTokens
        ["[ahead", String.mk (['4', '2'] ++ [',']), "behind",
          String.mk (['7'] ++ [']'])] =
      .Diverged (digitsVal ['4', '2']) (digitsVal ['7']) ∧
    parseTrackTokens ["[ahead", "x]"] = .Ahead 0 ∧
    parseTrackTokens ["[behind", "x]"] = .Behind 0 ∧
    parseTrackTokens ["[ahead", "x,", "behind", "y]"] = .Diverged 0 0 :=
  C6_theorem ['4', '2'] ['7'] (by decide) (by decide) (by decide)
    (by decide) (by decide) (by decide)

theorem lookup_seedBranches {b : String} {enum : List String}
    (hb : b ∈ enum) : lookupKey b (seedBranches enum) = some .Ok := by
  obtain ⟨v, hv⟩ := lookup_of_contains (containsKey_seedBranches.mpr hb)
  have hm : v = BranchStatus.Ok := mem_seedBranches (lookup_mem hv)
  rw [hv, hm]

theorem buildBranchMap_none (enum : List String) :
    buildBranchMap (some enum) none = seedBranches enum := by
  dsimp only [buildBranchMap]
  split_ifs <;> rfl

theorem buildBranchMap_single_line {enum : List String} {b l : String}
    {toks : List String} (hb : b ∈ enum)
    (hsplit : splitWhitespaceL l = b :: toks) :
    buildBranchMap (some enum) (some [l]) =
      insertReplace b (parseTrackTokens toks) (seedBranches enum) := by
  have hc : containsKey b (seedBranches enum) = true :=
    containsKey_seedBranches.mpr hb
  have hem : (seedBranches enum).isEmpty = false := by
    rcases he : seedBranches enum with _ | ⟨p, rest⟩
    · rw [he] at hc
      simp [containsKey] at hc
    · rfl
  dsimp only [buildBranchMap]
  rw [if_neg (by simp [hem])]
  rw [List.foldl_cons, List.foldl_nil]
  unfold trackLine
  simp only [hsplit, hc, if_true]

/-- C1 (corrected): an enumerated local branch whose tracking line carries
no token (the `for-each-ref` output for a branch with no upstream), or
whose tracking query failed outright, keeps the seeded placeholder `Ok` —
not `NoUpstream` as the claim states.  Only a tracking line whose first
token is unrecognisable (e.g. `[gone]`) yields `NoUpstream`. -/
theorem C1_amended_theorem (enum : List String) (b l : String)
    (toks : List String) (hb : b ∈ enum)
    (hsplit : splitWhitespaceL l = b :: toks) :
    lookupKey b (buildBranchMap (some enum) none) = some .Ok ∧
    (toks = [] →
      lookupKey b (buildBranchMap (some enum) (some [l])) = some .Ok) ∧
    (parseTrackTokens toks = .NoUpstream →
      lookupKey b (buildBranchMap (some enum) (some [l])) =
        some .NoUpstream) := by
  refine ⟨?_, ?_, ?_⟩
  · rw [buildBranchMap_none]
    exact lookup_seedBranches hb
  · intro ht
    subst ht
    rw [buildBranchMap_single_line hb hsplit]
    exact lookup_insertReplace_self b _ _
  · intro hp
    rw [buildBranchMap_single_line hb hsplit, ← hp]
    exact lookup_insertReplace_self b _ _

/-- C1 witness: branch `dev` with tracking line `dev [gone]`. -/
theorem C1_amended_theorem_witness :
    lookupKey ("dev") (buildBranchMap (some ["dev"]) none) = some .Ok ∧
    (["[gone]"] = ([] : List String) →
      lookupKey ("dev") (buildBranchMap (some ["dev"]) (some ["dev [gone]"])) =
        some .Ok) ∧
    (parseTrackTokens ["[gone]"] = .NoUpstream →
      lookupKey ("dev") (buildBranchMap (some ["dev"]) (some ["dev [gone]"])) =
        some .NoUpstream) :=
  C1_amended_theorem ["dev"] "dev" "dev [gone]" ["[gone]"]
    (by decide) (by decide)

/-- C1 counterexample: the sole local branch `dev` has no upstream and the
tracking query fails (`none`); the reported status is `Ok`, where the
claim demands `NoUpstream`. -/
theorem C1_counterexample :
    get_all_branches ("dev") (buildBranchMap (some ["dev"]) none) 0 0 =
      [⟨"dev", .Ok⟩] ∧
    BranchStatus.Ok ≠ BranchStatus.NoUpstream :=
  ⟨by decide, by decide⟩

/-- C2 (corrected): when a `.git` entry exists but is not a directory, the
walker still returns without recursing — it yields nothing for that
directory *and never descends into it*, so repositories nested below it
are not discovered.  (The claim as frozen says the walker lists the
directory's entries and recurses.) -/
theorem C2_amended_theorem (ok : List String → Bool) (path : List String)
    (name : String) (entries : List FSTree)
    (hgit : entries.any (fun e => e.name == ".git") = true)
    (hnotdir : entries.any (fun e => e.name == ".git" && e.isDir) = false) :
    findReposRecursive ok path (FSTree.dir name entries) = [] := by
  simp [findReposRecursive, hgit, hnotdir]

/-- C2 witness: a directory with a `.git` file and an ordinary
subdirectory. -/
theorem C2_amended_theorem_witness :
    findReposRecursive (fun _ => true) []
      (FSTree.dir ("srv")
        [FSTree.file (".git"),
         FSTree.dir ("sub") [FSTree.dir (".git") []]]) = [] :=
  C2_amended_theorem (fun _ => true) [] ("srv")
    [FSTree.file (".git"), FSTree.dir ("sub") [FSTree.dir (".git") []]]
    (by decide) (by decide)

/-- C2 counterexample: under a directory whose `.git` is a file, a nested
repository `sub` (with a real `.git` directory) is *not* discovered: the
walk of that directory returns nothing at all, contradicting the claim
that the walker recurses into the remaining subdirectories. -/
theorem C2_counterexample :
    findReposRecursive (fun _ => true) []
      (FSTree.dir ("top")
        [FSTree.file (".git"),
         FSTree.dir ("nested") [FSTree.dir (".git") []]]) = [] ∧
    ["nested"] ∉ findReposRecursive (fun _ => true) []
      (FSTree.dir ("top")
        [FSTree.file (".git"),
         FSTree.dir ("nested") [FSTree.dir (".git") []]]) :=
  ⟨by decide, by decide⟩

/-- C7 (confirmed): for any valid iteration order of the branch-status
map, the assembled branch list is nonempty, starts with the current-branch
entry, is followed by the synthetic uncommitted then untracked entries
exactly when their counts are positive, and no other entry is synthetic —
in particular none appears when both counts are zero. -/
theorem C7_theorem (current : String) (iter : AssocMap) (unc untr : Nat)
    (enum : Option (List String)) (track : Option (List String))
    (hiter : iter.Perm (buildBranchMap enum track)) :
    ∃ st rest,
      get_all_branches current iter unc untr =
        ⟨current, st⟩ ::
          ((if 0 < unc then [⟨"", .Uncommitted unc⟩] else []) ++
            ((if 0 < untr then [⟨"", .Untracked untr⟩] else []) ++ rest)) ∧
      st.isSynthetic = false ∧
      ∀ b ∈ rest, b.status.isSynthetic = false := by
  refine ⟨(lookupKey current iter).getD .NoUpstream,
    (iter.filter (fun p => p.1 != current)).map (fun p => ⟨p.1, p.2⟩),
    ?_, ?_, ?_⟩
  · simp only [get_all_branches]
    by_cases h : unc > 0 ∨ untr > 0
    · rw [if_pos h]
      simp [List.append_assoc]
    · rw [if_neg h]
      have h1 : ¬ 0 < unc := fun hc => h (Or.inl hc)
      have h2 : ¬ 0 < untr := fun hc => h (Or.inr hc)
      rw [if_neg h1, if_neg h2]
      simp
  · rcases hl : lookupKey current iter with _ | v
    · rfl
    · have hmem := lookup_mem hl
      have hmem2 : (current, v) ∈ buildBranchMap enum track :=
        hiter.mem_iff.mp hmem
      simpa using mem_buildBranchMap_not_synthetic hmem2
  · intro b hb
    simp only [List.mem_map, List.mem_filter] at hb
    obtain ⟨p, ⟨hp, _⟩, rfl⟩ := hb
    exact mem_buildBranchMap_not_synthetic (hiter.mem_iff.mp hp)

/-- C7 witness: one tracked branch, one uncommitted and two untracked
changes. -/
theorem C7_theorem_witness :
    ∃ st rest,
      get_all_branches ("main") [("main", BranchStatus.Ok)] 1 2 =
        ⟨"main", st⟩ ::
          ((if 0 < 1 then [⟨"", BranchStatus.Uncommitted 1⟩] else []) ++
            ((if 0 < 2 then [⟨"", BranchStatus.Untracked 2⟩] else []) ++
              rest)) ∧
      st.isSynthetic = false ∧
      ∀ b ∈ rest, b.status.isSynthetic = false :=
  C7_theorem ("main") [("main", .Ok)] 1 2 (some ["main"]) none (by decide)

theorem filter_map_fst (iter : AssocMap) (current : String) :
    (((iter.filter (fun p => p.1 != current)).map
        (fun p => (⟨p.1, p.2⟩ : BranchInfo))).map BranchInfo.name) =
      (iter.map Prod.fst).filter (fun n => n != current) := by
  induction iter with
  | nil => rfl
  | cons p rest ih =>
    by_cases h : (p.1 != current) = true
    · simp [List.filter_cons, h, ih]
    · simp only [Bool.not_eq_true] at h
      simp [List.filter_cons, h, ih]

/-- C3 (corrected): after the current-branch entry and the synthetic
change entries, the remaining entries are exactly the other branches of
the status map (current branch excluded) — but in the map's unspecified
iteration order, not the order the branch enumeration produced them.
Their names are exactly the enumerated branch names other than the
current branch, without duplicates. -/
theorem C3_amended_theorem (current : String) (iter : AssocMap)
    (unc untr : Nat) (l : List String) (track : Option (List String))
    (hiter : iter.Perm (buildBranchMap (some l) track)) :
    (get_all_branches current iter unc untr).drop
        (1 + (if 0 < unc then 1 else 0) + (if 0 < untr then 1 else 0)) =
      (iter.filter (fun p => p.1 != current)).map (fun p => ⟨p.1, p.2⟩) ∧
    (((get_all_branches current iter unc untr).drop
        (1 + (if 0 < unc then 1 else 0) +
          (if 0 < untr then 1 else 0))).map BranchInfo.name).Nodup ∧
    ∀ n : String,
      (n ∈ ((get_all_branches current iter unc untr).drop
        (1 + (if 0 < unc then 1 else 0) +
          (if 0 < untr then 1 else 0))).map BranchInfo.name) ↔
      (n ∈ l ∧ n ≠ current) := by
  have hkeys : (iter.map Prod.fst).Perm
      ((buildBranchMap (some l) track).map Prod.fst) := hiter.map Prod.fst
  have hnd : (iter.map Prod.fst).Nodup :=
    hkeys.nodup_iff.mpr (nodup_keys_buildBranchMap _ _)
  have key : (get_all_branches current iter unc untr).drop
      (1 + (if 0 < unc then 1 else 0) + (if 0 < untr then 1 else 0)) =
      (iter.filter (fun p => p.1 != current)).map (fun p => ⟨p.1, p.2⟩) := by
    simp only [get_all_branches]
    by_cases hu : unc > 0 ∨ untr > 0
    · rw [if_pos hu]
      have hlen :
          (([(⟨current,
                (lookupKey current iter).getD .NoUpstream⟩ : BranchInfo)] ++
              (if unc > 0 then
                [(⟨"", .Uncommitted unc⟩ : BranchInfo)] else []) ++
              (if untr > 0 then
                [(⟨"", .Untracked untr⟩ : BranchInfo)] else [])).length) =
          1 + (if 0 < unc then 1 else 0) + (if 0 < untr then 1 else 0) := by
        split_ifs <;> simp
      rw [← hlen, List.drop_left]
    · rw [if_neg hu]
      have h1 : ¬ 0 < unc := fun hc => hu (Or.inl hc)
      have h2 : ¬ 0 < untr := fun hc => hu (Or.inr hc)
      rw [if_neg h1, if_neg h2]
      simp
  refine ⟨key, ?_, ?_⟩
  · rw [key, filter_map_fst]
    exact hnd.filter _
  · intro n
    rw [key, filter_map_fst]
    simp only [List.mem_filter, bne_iff_ne, ne_eq]
    constructor
    · rintro ⟨hn, hne⟩
      refine ⟨?_, hne⟩
      have hmem : n ∈ (buildBranchMap (some l) track).map Prod.fst :=
        hkeys.mem_iff.mp hn
      exact containsKey_buildBranchMap.mp (contains_iff_mem_keys.mpr hmem)
    · rintro ⟨hn, hne⟩
      refine ⟨?_, hne⟩
      have hc : containsKey n (buildBranchMap (some l) track) = true :=
        containsKey_buildBranchMap.mpr hn
      exact hkeys.mem_iff.mpr (contains_iff_mem_keys.mp hc)

/-- C3 witness: enumeration `a, b`, reversed map iteration order. -/
theorem C3_amended_theorem_witness :
    (get_all_branches ("a") [("b", BranchStatus.Ok), ("a", BranchStatus.Ok)]
        0 0).drop
        (1 + (if 0 < 0 then 1 else 0) + (if 0 < 0 then 1 else 0)) =
      (([("b", BranchStatus.Ok), ("a", BranchStatus.Ok)] : AssocMap).filter
        (fun p => p.1 != "a")).map (fun p => ⟨p.1, p.2⟩) ∧
    (((get_all_branches ("a")
        [("b", BranchStatus.Ok), ("a", BranchStatus.Ok)] 0 0).drop
        (1 + (if 0 < 0 then 1 else 0) +
          (if 0 < 0 then 1 else 0))).map BranchInfo.name).Nodup ∧
    ∀ n : String,
      (n ∈ ((get_all_branches ("a")
        [("b", BranchStatus.Ok), ("a", BranchStatus.Ok)] 0 0).drop
        (1 + (if 0 < 0 then 1 else 0) +
          (if 0 < 0 then 1 else 0))).map BranchInfo.name) ↔
      (n ∈ ["a", "b"] ∧ n ≠ "a") :=
  C3_amended_theorem ("a") [("b", BranchStatus.Ok), ("a", BranchStatus.Ok)]
    0 0 ["a", "b"] none (by decide)

/-- C3 counterexample: enumeration order `a, b, c` with current branch
`a`; a legitimate map iteration order presents `c` before `b`, so the
entries after the current-branch entry are *not* in enumeration order
(`b` then `c`) as the claim states. -/
theorem C3_counterexample :
    ([("c", BranchStatus.Ok), ("b", BranchStatus.Ok),
        ("a", BranchStatus.Ok)] : AssocMap).Perm
      (buildBranchMap (some ["a", "b", "c"]) none) ∧
    (get_all_branches ("a")
        [("c", BranchStatus.Ok), ("b", BranchStatus.Ok),
          ("a", BranchStatus.Ok)] 0 0).drop 1 ≠
      [⟨"b", BranchStatus.Ok⟩, ⟨"c", BranchStatus.Ok⟩] :=
  ⟨by decide, by decide⟩

/-- C9 (confirmed): with no discovered repositories the tree renderer
emits exactly the base-directory line followed by the
no-repositories-found line — two lines in total. -/
theorem C9_theorem (base : List String)
    (h : '\n' ∉ (pathText base).data) :
    printTree [] base =
      (pathText base ++ "\n") ++ ("  No git repositories found" ++ "\n") ∧
    (printTree [] base).data.count '\n' = 2 := by
  have he : printTree [] base =
      (pathText base ++ "\n") ++ ("  No git repositories found" ++ "\n") :=
    rfl
  refine ⟨he, ?_⟩
  have hdata : (printTree [] base).data =
      ((pathText base).data ++ ['\n']) ++
        (("  No git repositories found" : String).data ++ ['\n']) := rfl
  rw [hdata, List.count_append, List.count_append]
  rw [List.count_eq_zero.mpr h]
  decide

/-- C9 witness at base directory `home/repos`. -/
theorem C9_theorem_witness :
    printTree [] ["home", "repos"] =
      (pathText ["home", "repos"] ++ "\n") ++
        ("  No git repositories found" ++ "\n") ∧
    (printTree [] ["home", "repos"]).data.count '\n' = 2 :=
  C9_theorem ["home", "repos"] (by decide)

theorem get_all_branches_head (current : String) (iter : AssocMap)
    (unc untr : Nat) :
    ∃ junk, get_all_branches current iter unc untr =
      ⟨current, (lookupKey current iter).getD .NoUpstream⟩ :: junk := by
  simp only [get_all_branches]
  by_cases hcase : unc > 0 ∨ untr > 0
  · rw [if_pos hcase]
    refine ⟨(if unc > 0 then [(⟨"", .Uncommitted unc⟩ : BranchInfo)]
        else []) ++
      ((if untr > 0 then [(⟨"", .Untracked untr⟩ : BranchInfo)] else []) ++
        (iter.filter (fun p => p.1 != current)).map
          (fun p => ⟨p.1, p.2⟩)), ?_⟩
    simp [List.append_assoc]
  · rw [if_neg hcase]
    exact ⟨(iter.filter (fun p => p.1 != current)).map
      (fun p => ⟨p.1, p.2⟩), by simp⟩

/-- C10 (confirmed): every status produced by resolution — including a
detached-HEAD one, whose current branch is the `HEAD` sentinel — locates
its current branch among `all_branches` by exact name (it is always the
first entry), so the flat renderer always prints the parenthesised branch
name and its status for the repository. -/
theorem C10_theorem (env : RepoEnv) (rs : RepoStatus)
    (h : get_repo_status env = some rs) :
    ∃ st,
      rs.all_branches.find? (fun b => b.name == rs.current_branch) =
        some ⟨rs.current_branch, st⟩ ∧
      printFlat [rs] =
        pathText rs.path ++
          (" (" ++ rs.current_branch ++ ")" ++ statusText st) ++ "\n" := by
  rcases env with ⟨p, o, hr, s, lb, t, mi⟩
  cases o
  · simp [get_repo_status] at h
  rcases hr with _ | h'
  · simp [get_repo_status] at h
  · have h2 : some (⟨p, headToBranchName h',
        get_all_branches (headToBranchName h') mi
          (countChanges s).1 (countChanges s).2⟩ : RepoStatus) = some rs := h
    have hrs := Option.some.inj h2
    subst hrs
    refine ⟨(lookupKey (headToBranchName h') mi).getD .NoUpstream, ?_, ?_⟩
    · obtain ⟨junk, hj⟩ :=
        get_all_branches_head (headToBranchName h') mi
          (countChanges s).1 (countChanges s).2
      show (get_all_branches (headToBranchName h') mi
          (countChanges s).1 (countChanges s).2).find?
          (fun b => b.name == headToBranchName h') = _
      rw [hj]
      rw [List.find?_cons_of_pos _ (by simp)]
    · obtain ⟨junk, hj⟩ :=
        get_all_branches_head (headToBranchName h') mi
          (countChanges s).1 (countChanges s).2
      show flatLine _ = _
      unfold flatLine
      show pathText p ++ _ ++ "\n" = _
      rw [show (⟨p, headToBranchName h',
          get_all_branches (headToBranchName h') mi
            (countChanges s).1 (countChanges s).2⟩ : RepoStatus).all_branches
          = get_all_branches (headToBranchName h') mi
            (countChanges s).1 (countChanges s).2 from rfl]
      rw [hj]
      rw [List.find?_cons_of_pos _ (by simp)]

/-- C10 witness: a detached-HEAD repository; the flat line shows
`(HEAD)`. -/
theorem C10_theorem_witness :
    ∃ st,
      (List.find?
          (fun b => b.name == "HEAD")
          [(⟨"HEAD", BranchStatus.NoUpstream⟩ : BranchInfo)]) =
        some ⟨"HEAD", st⟩ ∧
      printFlat [⟨["w"], "HEAD", [⟨"HEAD", BranchStatus.NoUpstream⟩]⟩] =
        pathText ["w"] ++ (" (" ++ "HEAD" ++ ")" ++
          statusText st) ++ "\n" :=
  C10_theorem ⟨["w"], true, some none, some [], some [], none, []⟩
    ⟨["w"], "HEAD", [⟨"HEAD", BranchStatus.NoUpstream⟩]⟩ (by decide)

/-! ### Walker lemmas for the no-nesting invariant. -/

theorem mem_findInEntries {ok : List String → Bool} {path p : List String} :
    ∀ {es : List FSTree},
      p ∈ findInEntries ok path es ↔
      ∃ e ∈ es, skipName e.name = false ∧ e.isDir = true ∧
        p ∈ findReposRecursive ok (path ++ [e.name]) e := by
  intro es
  induction es with
  | nil => simp [findInEntries]
  | cons e rest ih =>
    simp only [findInEntries, List.mem_append, ih]
    constructor
    · rintro (hp | ⟨e', he', h1, h2, h3⟩)
      · by_cases hs : skipName e.name = true
        · rw [if_pos hs] at hp
          simp at hp
        · rw [if_neg hs] at hp
          by_cases hd : e.isDir = true
          · rw [if_pos hd] at hp
            exact ⟨e, List.mem_cons_self e rest, by simpa using hs, hd, hp⟩
          · rw [if_neg hd] at hp
            simp at hp
      · exact ⟨e', List.mem_cons_of_mem _ he', h1, h2, h3⟩
    · rintro ⟨e', he', h1, h2, h3⟩
      rcases List.mem_cons.mp he' with rfl | he''
      · left
        rw [if_neg (by simp [h1]), if_pos h2]
        exact h3
      · right
        exact ⟨e', he'', h1, h2, h3⟩

theorem prefAppend (l u : List String) : l <+: l ++ u := ⟨u, rfl⟩

theorem prefTrans {a b c : List String} (h1 : a <+: b) (h2 : b <+: c) :
    a <+: c := by
  obtain ⟨u, hu⟩ := h1
  obtain ⟨v, hv⟩ := h2
  exact ⟨u ++ v, by rw [← List.append_assoc, hu, hv]⟩

theorem fstree_sizeOf_pos (t : FSTree) : 0 < sizeOf t := by
  cases t with
  | file n =>
    rw [FSTree.file.sizeOf_spec]
    omega
  | dir n es =>
    rw [FSTree.dir.sizeOf_spec]
    omega

theorem findRepos_base_aux :
    ∀ (N : Nat) (t : FSTree), sizeOf t ≤ N →
      ∀ (ok : List String → Bool) (path p : List String),
        p ∈ findReposRecursive ok path t → path <+: p := by
  intro N
  induction N with
  | zero =>
    intro t ht ok path p hp
    exact absurd (fstree_sizeOf_pos t) (by omega)
  | succ N ih =>
    intro t ht ok path p hp
    cases t with
    | file n => simp [findReposRecursive] at hp
    | dir n entries =>
      simp only [findReposRecursive] at hp
      by_cases hgit : entries.any (fun e => e.name == ".git") = true
      · rw [if_pos hgit] at hp
        by_cases hcond :
            (entries.any (fun e => e.name == ".git" && e.isDir) &&
              ok path) = true
        · rw [if_pos hcond] at hp
          simp only [List.mem_singleton] at hp
          subst hp
          exact ⟨[], List.append_nil _⟩
        · rw [if_neg hcond] at hp
          simp at hp
      · rw [if_neg hgit] at hp
        obtain ⟨e, he, h1, h2, h3⟩ := mem_findInEntries.mp hp
        have hsz : sizeOf e ≤ N := by
          have h4 := List.sizeOf_lt_of_mem he
          have h5 := FSTree.dir.sizeOf_spec n entries
          omega
        exact prefTrans (prefAppend path [e.name])
          (ih e hsz ok (path ++ [e.name]) p h3)

theorem wfAll_mem {es : List FSTree} (h : wfAll es = true) :
    ∀ e ∈ es, FSTree.wfB e = true := by
  induction es with
  | nil => intro e he; simp at he
  | cons x rest ih =>
    simp only [wfAll, Bool.and_eq_true] at h
    intro e he
    rcases List.mem_cons.mp he with rfl | he'
    · exact h.1
    · exact ih h.2 e he'

theorem containsStr_iff {l : List String} {a : String} :
    l.contains a = true ↔ a ∈ l :=
  List.elem_iff

theorem nodupNames_nodup {l : List String} (h : nodupNames l = true) :
    l.Nodup := by
  induction l with
  | nil => exact List.nodup_nil
  | cons x rest ih =>
    simp only [nodupNames, Bool.and_eq_true, Bool.not_eq_true'] at h
    refine List.nodup_cons.mpr ⟨?_, ih h.2⟩
    intro hm
    have := containsStr_iff.mpr hm
    rw [h.1] at this
    cases this

theorem seg_eq_of_chain {path p q : List String} {a b : String}
    (ha : path ++ [a] <+: p) (hpq : p <+: q) (hb : path ++ [b] <+: q) :
    a = b := by
  obtain ⟨u, hu⟩ := prefTrans ha hpq
  obtain ⟨v, hv⟩ := hb
  rw [List.append_assoc] at hu hv
  have heq : path ++ ([a] ++ u) = path ++ ([b] ++ v) := hu.trans hv.symm
  have h2 := List.append_cancel_left heq
  simp only [List.singleton_append, List.cons_append] at h2
  exact (List.cons.inj h2).1

theorem noNest_entries (es : List FSTree)
    (_hwfs : ∀ e ∈ es, FSTree.wfB e = true)
    (hIH : ∀ e ∈ es, ∀ (ok : List String → Bool)
      (path' p q : List String),
      p ∈ findReposRecursive ok path' e →
      q ∈ findReposRecursive ok path' e → p ≠ q → ¬ p <+: q)
    (hnodup : nodupNames (es.map FSTree.name) = true)
    (ok : List String → Bool) (path p q : List String)
    (hp : p ∈ findInEntries ok path es)
    (hq : q ∈ findInEntries ok path es) (hne : p ≠ q) : ¬ p <+: q := by
  intro hpq
  obtain ⟨e1, he1, hs1, hd1, hp1⟩ := mem_findInEntries.mp hp
  obtain ⟨e2, he2, hs2, hd2, hq2⟩ := mem_findInEntries.mp hq
  by_cases hsame : e1 = e2
  · subst hsame
    exact hIH e1 he1 ok (path ++ [e1.name]) p q hp1 hq2 hne hpq
  · have hb1 : (path ++ [e1.name]) <+: p :=
      findRepos_base_aux (sizeOf e1) e1 (Nat.le_refl _) ok _ p hp1
    have hb2 : (path ++ [e2.name]) <+: q :=
      findRepos_base_aux (sizeOf e2) e2 (Nat.le_refl _) ok _ q hq2
    have hnames := seg_eq_of_chain hb1 hpq hb2
    have hinj := List.inj_on_of_nodup_map (nodupNames_nodup hnodup)
    exact hsame (hinj he1 he2 hnames)

theorem noNest_aux :
    ∀ (N : Nat) (t : FSTree), sizeOf t ≤ N → FSTree.wfB t = true →
      ∀ (ok : List String → Bool) (path p q : List String),
        p ∈ findReposRecursive ok path t →
        q ∈ findReposRecursive ok path t → p ≠ q → ¬ p <+: q := by
  intro N
  induction N with
  | zero =>
    intro t ht hwf ok path p q hp hq hne
    exact absurd (fstree_sizeOf_pos t) (by omega)
  | succ N ih =>
    intro t ht hwf ok path p q hp hq hne
    cases t with
    | file n => simp [findReposRecursive] at hp
    | dir n entries =>
      simp only [findReposRecursive] at hp hq
      by_cases hgit : entries.any (fun e => e.name == ".git") = true
      · rw [if_pos hgit] at hp hq
        by_cases hcond :
            (entries.any (fun e => e.name == ".git" && e.isDir) &&
              ok path) = true
        · rw [if_pos hcond] at hp hq
          simp only [List.mem_singleton] at hp hq
          subst hp
          subst hq
          exact absurd rfl hne
        · rw [if_neg hcond] at hp
          simp at hp
      · rw [if_neg hgit] at hp hq
        have hwf' : nodupNames (entries.map FSTree.name) = true ∧
            wfAll entries = true := by
          simpa [FSTree.wfB, Bool.and_eq_true] using hwf
        refine noNest_entries entries (wfAll_mem hwf'.2) ?_ hwf'.1
          ok path p q hp hq hne
        intro e he ok' path' p' q' hp' hq' hne'
        have hsz : sizeOf e ≤ N := by
          have h4 := List.sizeOf_lt_of_mem he
          have h5 := FSTree.dir.sizeOf_spec n entries
          omega
        exact ih e hsz (wfAll_mem hwf'.2 e he) ok' path' p' q' hp' hq' hne'

/-- C8 (confirmed): over any well-formed directory tree (sibling names
distinct, as on a real filesystem), two distinct paths returned by the
walker are never in strict-ancestor relation: once a `.git` entry is seen
the walker stops, so no returned path lies below another. -/
theorem C8_theorem (ok : List String → Bool) (t : FSTree)
    (path p q : List String) (hwf : FSTree.wfB t = true)
    (hp : p ∈ findReposRecursive ok path t)
    (hq : q ∈ findReposRecursive ok path t) (hne : p ≠ q) :
    ¬ p <+: q :=
  noNest_aux (sizeOf t) t (Nat.le_refl _) hwf ok path p q hp hq hne

/-- C8 witness: two sibling repositories under one root. -/
theorem C8_theorem_witness :
    FSTree.wfB (FSTree.dir ("root")
      [FSTree.dir ("r1") [FSTree.dir (".git") []],
       FSTree.dir ("r2") [FSTree.dir (".git") []]]) = true ∧
    ["r1"] ∈ findReposRecursive (fun _ => true) []
      (FSTree.dir ("root")
        [FSTree.dir ("r1") [FSTree.dir (".git") []],
         FSTree.dir ("r2") [FSTree.dir (".git") []]]) ∧
    ["r2"] ∈ findReposRecursive (fun _ => true) []
      (FSTree.dir ("root")
        [FSTree.dir ("r1") [FSTree.dir (".git") []],
         FSTree.dir ("r2") [FSTree.dir (".git") []]]) ∧
    ¬ ["r1"] <+: ["r2"] := by
  refine ⟨by decide, by decide, by decide, ?_⟩
  exact C8_theorem (fun _ => true)
    (FSTree.dir ("root")
      [FSTree.dir ("r1") [FSTree.dir (".git") []],
       FSTree.dir ("r2") [FSTree.dir (".git") []]])
    [] ["r1"] ["r2"] (by decide) (by decide) (by decide) (by decide)

end GitExtend
